import Mathlib

/-!
Shallow embedding of `scripts/compare_wcag_json.py`, the reconciliation/diff
engine of the wcag-as-json repository: identifier extraction (`extract_id`),
record-list location (`guess_items`), index building (`flatten_items`),
field diffing (`diff_for_item`) and report assembly (the pure part of `main`).

Parsed JSON documents are modelled by `JVal`; JSON numbers are modelled as
integers (the repository's data carries identifiers and text, and no claim
depends on float rendering).  Python `dict`s (which the `json` module produces
with unique keys, in insertion order) are modelled as association lists with
unique keys.  `json.dumps(v, ensure_ascii=False, sort_keys=True)`,
`str.strip`, `re.sub(r"\s+", " ", ·)` and the two uses of the module-level
regex `ID_RE = ^\d+\.\d+\.\d+$` are modelled explicitly below.  The
`generated_at` timestamp of the report is the one impure part of `main` and is
not modelled; the claims all exclude it.
-/

/-- Characters treated as whitespace by Python's `str.strip()` and by `\s` in
the `re` module on `str` (ASCII whitespace, the C0 separators, and the
Unicode space characters). -/
def pyWsChars : List Char :=
  [' ', '\t', '\n', '\r', '\x0b', '\x0c', '\x1c', '\x1d', '\x1e', '\x1f',
   '\x85', ' ', ' ', ' ', ' ', ' ', ' ',
   ' ', ' ', ' ', ' ', ' ', ' ', ' ',
   ' ', ' ', ' ', ' ', '　']

/-- Whether a character is Python whitespace. -/
def isPySpace (c : Char) : Bool := pyWsChars.contains c

/-- Drop trailing Python whitespace from a character list. -/
def dropTrailWs (l : List Char) : List Char :=
  (l.reverse.dropWhile isPySpace).reverse

/-- Model of Python `str.strip()` on the character list of a string. -/
def pyStripL (l : List Char) : List Char :=
  dropTrailWs (l.dropWhile isPySpace)

/-- Model of Python `str.strip()`. -/
def stripStr (s : String) : String := String.mk (pyStripL s.data)

/-- One pass of `re.sub(r"\s+", " ", ·)`: each maximal run of whitespace is
replaced by a single space.  The boolean argument records whether the
previous character was part of a whitespace run whose single `' '` has
already been emitted. -/
def collapseGo : Bool → List Char → List Char
  | _, [] => []
  | prevWs, c :: cs =>
    if isPySpace c then
      if prevWs then collapseGo true cs else ' ' :: collapseGo true cs
    else c :: collapseGo false cs

/-- Model of `re.sub(r"\s+", " ", l.strip())`, the string branch of
`normalize_text`, on character lists. -/
def normStrL (l : List Char) : List Char :=
  collapseGo false (pyStripL l)

/-- Model of `re.sub(r"\s+", " ", s.strip())`. -/
def normStr (s : String) : String := String.mk (normStrL s.data)

/-- Parsed JSON value (the Python in-memory form after `json.loads`):
`null`/`None`, booleans, numbers (modelled as integers), strings, lists,
and dicts as association lists with unique keys in insertion order. -/
inductive JVal where
  | null : JVal
  | bool : Bool → JVal
  | num : Int → JVal
  | str : String → JVal
  | arr : List JVal → JVal
  | obj : List (String × JVal) → JVal

/-- Decimal digit character, as produced by Python's integer rendering. -/
def digitCharOf (d : Nat) : Char := Char.ofNat (48 + d % 10)

/-- Fuel-driven decimal rendering of a natural number (most significant digit
first); the fuel `n + 1` always suffices. -/
def natDigitsAux : Nat → Nat → List Char
  | 0, _ => []
  | fuel + 1, n =>
    if n < 10 then [digitCharOf n]
    else natDigitsAux fuel (n / 10) ++ [digitCharOf n]

/-- Model of Python's decimal rendering of a natural number. -/
def natRepr (n : Nat) : String := String.mk (natDigitsAux (n + 1) n)

/-- Model of Python's (and `json.dumps`'s) rendering of an integer. -/
def intRepr : Int → String
  | .ofNat m => natRepr m
  | .negSucc m => "-" ++ natRepr (m + 1)

/-- Lower-case hexadecimal digit. -/
def hexDigitOf (d : Nat) : Char :=
  if d % 16 < 10 then Char.ofNat (48 + d % 16) else Char.ofNat (87 + d % 16)

/-- Escape of one character inside a JSON string literal as produced by
`json.dumps(·, ensure_ascii=False)`: quote, backslash and C0 controls are
escaped, everything else passes through. -/
def escCharL (c : Char) : List Char :=
  if c = '"' then ['\\', '"']
  else if c = '\\' then ['\\', '\\']
  else if c = '\n' then ['\\', 'n']
  else if c = '\r' then ['\\', 'r']
  else if c = '\t' then ['\\', 't']
  else if c = '\x08' then ['\\', 'b']
  else if c = '\x0c' then ['\\', 'f']
  else if c.toNat < 32 then
    ['\\', 'u', '0', '0', hexDigitOf (c.toNat / 16), hexDigitOf c.toNat]
  else [c]

/-- Model of the JSON string literal `json.dumps` produces for `s`. -/
def jsonQuote (s : String) : String :=
  String.mk ('"' :: (s.data.map escCharL).flatten ++ ['"'])

/-- Code-point lexicographic comparison of character lists, as Python compares
strings. -/
def charListLe : List Char → List Char → Bool
  | [], _ => true
  | _ :: _, [] => false
  | a :: as, b :: bs => if a < b then true else if b < a then false else charListLe as bs

/-- Python's `s <= t` on strings (code-point lexicographic). -/
def strLe (a b : String) : Bool := charListLe a.data b.data

/-- `strLe` as a decidable relation, for `List.insertionSort`. -/
def strLeP (a b : String) : Prop := strLe a b = true

instance : DecidableRel strLeP := fun a b => inferInstanceAs (Decidable (strLe a b = true))

/-- Model of Python `sorted` on a list of strings. -/
def sortStrings (l : List String) : List String := l.insertionSort strLeP

/-- Key comparison used by `json.dumps(..., sort_keys=True)`, applied to
already-rendered fields. -/
def fieldLeP (p q : String × String) : Prop := strLe p.1 q.1 = true

instance : DecidableRel fieldLeP := fun p q => inferInstanceAs (Decidable (strLe p.1 q.1 = true))

/-- The key sort performed by `json.dumps(..., sort_keys=True)`, applied to
the rendered fields: since each value is rendered independently of its
position and the sort is stable and keyed on the key alone, sorting the
rendered `(key, rendered value)` pairs produces the same document as sorting
the fields first and rendering afterwards, which is what `json.dumps` does. -/
def sortFields (kvs : List (String × String)) : List (String × String) :=
  kvs.insertionSort fieldLeP

/-- Rendered object fields joined with the default `", "`/`": "` separators. -/
def joinFields : List (String × String) → String
  | [] => ""
  | [(k, rv)] => jsonQuote k ++ ": " ++ rv
  | (k, rv) :: rest => jsonQuote k ++ ": " ++ rv ++ ", " ++ joinFields rest

mutual

/-- Model of `json.dumps(v, ensure_ascii=False, sort_keys=True)` (default
separators `", "` and `": "`). -/
def dumps : JVal → String
  | .null => "null"
  | .bool true => "true"
  | .bool false => "false"
  | .num n => intRepr n
  | .str s => jsonQuote s
  | .arr xs => "[" ++ dumpsElems xs ++ "]"
  | .obj kvs => "\x7b" ++ joinFields (sortFields (dumpsFields kvs)) ++ "\x7d"

/-- Array elements rendered and joined with `", "`. -/
def dumpsElems : List JVal → String
  | [] => ""
  | [x] => dumps x
  | x :: rest => dumps x ++ ", " ++ dumpsElems rest

/-- Object fields paired with their rendered values, in source order. -/
def dumpsFields : List (String × JVal) → List (String × String)
  | [] => []
  | (k, v) :: rest => (k, dumps v) :: dumpsFields rest

end

/-- `normalize_text` from the source: `None` becomes `""`, a string is
stripped and has every whitespace run collapsed to one space, and any other
value is canonicalized via `json.dumps(v, ensure_ascii=False, sort_keys=True)`. -/
def normalize_text : JVal → String
  | .null => ""
  | .str s => normStr s
  | v => dumps v

/-- ASCII decimal digit, the `\d` of the claims' identifier pattern. -/
def isAsciiDigit (c : Char) : Bool := '0' ≤ c && c ≤ '9'

/-- Attempt to match `\d+\.\d+\.\d+` at the start of the list, returning the
matched characters.  Because `\d+` is greedy and the following required
character `'.'` is not a digit, maximal munch is exactly Python's
backtracking semantics for this pattern. -/
def matchIdAt (l : List Char) : Option (List Char) :=
  let d1 := l.takeWhile isAsciiDigit
  if d1.isEmpty then none
  else
    match l.dropWhile isAsciiDigit with
    | '.' :: r2 =>
      let d2 := r2.takeWhile isAsciiDigit
      if d2.isEmpty then none
      else
        match r2.dropWhile isAsciiDigit with
        | '.' :: r4 =>
          let d3 := r4.takeWhile isAsciiDigit
          if d3.isEmpty then none
          else some (d1 ++ '.' :: d2 ++ '.' :: d3)
        | _ => none
    | _ => none

/-- Model of `ID_RE.match(s)` for `ID_RE = re.compile(r"^\d+\.\d+\.\d+$")`:
the pattern has to consume the whole string (the input is always stripped
first, so the `$`-before-final-newline subtlety cannot arise). -/
def idFullMatch (s : String) : Bool :=
  match matchIdAt s.data with
  | some m => m.length == s.data.length
  | none => false

/-- Model of `re.search(r"(\d+\.\d+\.\d+)", ·)` on character lists: leftmost
match wins. -/
def idSearchL : List Char → Option (List Char)
  | [] => none
  | c :: cs =>
    match matchIdAt (c :: cs) with
    | some m => some m
    | none => idSearchL cs

/-- Model of `re.search(r"(\d+\.\d+\.\d+)", s)`, returning the matched group. -/
def idSearch (s : String) : Option String := (idSearchL s.data).map String.mk

/-- Lookup in a parsed-dict association list (Python `dict.get`; parsed dicts
have unique keys, so first match is the match). -/
def jGet (kvs : List (String × JVal)) (k : String) : Option JVal :=
  match kvs with
  | [] => none
  | (k1, v) :: rest => if k1 = k then some v else jGet rest k

/-- The candidate identifier fields of `extract_id`, in source order. -/
def candidateKeys : List String :=
  ["id", "scId", "successCriterion", "criterion", "numero", "number"]

/-- First pass of `extract_id`: for each candidate value, if it is a string,
strip it; if the stripped string fully matches `ID_RE`, return it. -/
def passExact : List (Option JVal) → Option String
  | [] => none
  | some (.str s) :: rest =>
    let t := stripStr s
    if idFullMatch t then some t else passExact rest
  | _ :: rest => passExact rest

/-- Second pass of `extract_id`: re-scan the same (unstripped) candidate
values for the pattern occurring anywhere, returning the first group found. -/
def passLoose : List (Option JVal) → Option String
  | [] => none
  | some (.str s) :: rest =>
    (match idSearch s with
     | some m => some m
     | none => passLoose rest)
  | _ :: rest => passLoose rest

/-- `extract_id` from the source: `None` for non-dicts; otherwise the exact
pass over the six candidate fields, then the loose pass. -/
def extract_id (item : JVal) : Option String :=
  match item with
  | .obj kvs =>
    let cands := candidateKeys.map (jGet kvs)
    (match passExact cands with
     | some s => some s
     | none => passLoose cands)
  | _ => none

/-- The conventional wrapper keys tried by `guess_items`, in source order. -/
def wrapperKeys : List String :=
  ["successCriteria", "criteria", "criterios", "items", "wcag", "guidelines", "Guidelines"]

/-- First loop of `guess_items` over a dict: the first wrapper key whose
value is a list. -/
def findWrapper (kvs : List (String × JVal)) : List String → Option (List JVal)
  | [] => none
  | k :: rest =>
    match jGet kvs k with
    | some (.arr xs) => some xs
    | _ => findWrapper kvs rest

/-- Whether a value is a dict (`isinstance(x, dict)`). -/
def jIsObj : JVal → Bool
  | .obj _ => true
  | _ => false

/-- Fallback loop of `guess_items`: the first value that is a non-empty list
whose elements are all dicts, scanning the dict in insertion order. -/
def findFallback : List (String × JVal) → Option (List JVal)
  | [] => none
  | (_, v) :: rest =>
    match v with
    | .arr xs => if !xs.isEmpty && xs.all jIsObj then some xs else findFallback rest
    | _ => findFallback rest

/-- `guess_items` from the source: a top-level list is returned as is; a dict
is probed for the wrapper keys and then for any non-empty all-dict list;
anything else yields `none`. -/
def guess_items (data : JVal) : Option (List JVal) :=
  match data with
  | .arr xs => some xs
  | .obj kvs =>
    (match findWrapper kvs wrapperKeys with
     | some xs => some xs
     | none => findFallback kvs)
  | _ => none

/-- Python dict insertion `out[k] = v`: replace in place if the key exists,
else append. -/
def upsert (m : List (String × JVal)) (k : String) (v : JVal) : List (String × JVal) :=
  if m.any (fun p => p.1 = k) then
    m.map (fun p => if p.1 = k then (k, v) else p)
  else m ++ [(k, v)]

/-- `flatten_items` from the source: locate the record list (an empty or
missing list gives the empty index, `if not items`), then insert each record
under its extracted identifier, later records overwriting earlier ones. -/
def flatten_items (data : JVal) : List (String × JVal) :=
  match guess_items data with
  | none => []
  | some items =>
    if items.isEmpty then []
    else
      items.foldl
        (fun out item =>
          match extract_id item with
          | some i => upsert out i item
          | none => out)
        []

/-- One per-field difference record as built by `diff_for_item`:
`{"field": k, "tenon": va, "w3c": vb, "diff": d}`.  A missing field and an
explicit `null` both reach the record as Python `None`, modelled as
`JVal.null`. -/
structure FieldDiff where
  field : String
  tenon : JVal
  w3c : JVal
  diff : Option String

/-- `a.get(k) if isinstance(a, dict) else None`. -/
def vGet (v : JVal) (k : String) : JVal :=
  match v with
  | .obj kvs => (jGet kvs k).getD .null
  | _ => .null

/-- The keys of a record (empty for non-dicts). -/
def objKeys : JVal → List String
  | .obj kvs => kvs.map Prod.fst
  | _ => []

/-- Python truthiness of the `key_whitelist` argument: `None` and the empty
list are both falsy. -/
def wlActive : Option (List String) → Bool
  | some l => !l.isEmpty
  | none => false

/-- The key set iterated by `diff_for_item`: `sorted(set(a) | set(b))`,
intersected with the whitelist only when the whitelist is truthy. -/
def diffKeys (a b : JVal) (wl : Option (List String)) : List String :=
  let keys := (objKeys a ++ objKeys b).dedup
  let keys := if wlActive wl then keys.filter (fun k => (wl.getD []).contains k) else keys
  sortStrings keys

/-- Lines of a string for the diff model (Python `str.splitlines`, major
case: split at `'\n'`, no trailing empty line, empty string gives no lines). -/
def splitLinesGo : List Char → List Char → List String
  | [], cur => [String.mk cur.reverse]
  | c :: rest, cur =>
    if c = '\n' then String.mk cur.reverse :: splitLinesGo rest []
    else splitLinesGo rest (c :: cur)

/-- Split a string into lines for the diff model. -/
def modelSplitLines (s : String) : List String :=
  if s.data.isEmpty then [] else splitLinesGo s.data []

/-- Join strings with newlines (`"\n".join(...)`). -/
def joinNl : List String → String
  | [] => ""
  | [x] => x
  | x :: rest => x ++ "\n" ++ joinNl rest

/-- Modelled from the spec: the source calls `difflib.unified_diff`
(Python standard library, not part of this repository's sources) on
`va.splitlines()` and `vb.splitlines()` with `fromfile="tenon"`,
`tofile="w3c"`, `lineterm=""`, and joins the emitted lines with `"\n"` —
"compute a unified line-by-line diff of the two strings (source A as
`from`, source B as `to`) and attach it".  The claims depend only on when
this text is present and on its from/to orientation, so the hunk
computation itself is modelled as a single full-replacement hunk. -/
def unifiedDiffText (va vb : String) : String :=
  joinNl (["--- tenon", "+++ w3c"]
    ++ (modelSplitLines va).map (fun l => "-" ++ l)
    ++ (modelSplitLines vb).map (fun l => "+" ++ l))

/-- The body of the per-key loop of `diff_for_item`: `None` when the
normalized values agree, otherwise the difference record, with the unified
diff text attached exactly when both raw values are strings whose raw
lengths sum to more than 80. -/
def mkFieldDiff (a b : JVal) (k : String) : Option FieldDiff :=
  let va := vGet a k
  let vb := vGet b k
  let ta := normalize_text va
  let tb := normalize_text vb
  if ta = tb then none
  else
    match va, vb with
    | .str sa, .str sb =>
      if sa.length + sb.length > 80 then
        some { field := k, tenon := va, w3c := vb, diff := some (unifiedDiffText sa sb) }
      else some { field := k, tenon := va, w3c := vb, diff := none }
    | _, _ => some { field := k, tenon := va, w3c := vb, diff := none }

/-- `diff_for_item` from the source: one difference record per sorted key
with unequal normalized values, in key order. -/
def diff_for_item (a b : JVal) (wl : Option (List String)) : List FieldDiff :=
  (diffKeys a b wl).filterMap (mkFieldDiff a b)

/-- The six counters of the report (`report["counts"]`). -/
structure Counts where
  tenon_items : Nat
  w3c_items : Nat
  only_tenon : Nat
  only_w3c : Nat
  changed_common : Nat
  common_total : Nat

/-- One entry of `report["changes"]`: `{"id": _id, "diffs": diffs}`. -/
structure ChangeEntry where
  id : String
  diffs : List FieldDiff

/-- The pure content of the report assembled by `main` (the `generated_at`
timestamp is the one impure field and is not modelled). -/
structure Report where
  counts : Counts
  only_tenon : List String
  only_w3c : List String
  changes : List ChangeEntry

/-- Report assembly from the two indices, parametrized by the enumeration
order of the two identifier sets (`set(tenon_map.keys())` and
`set(w3c_map.keys())` have no specified iteration order in Python; `main`
always sorts before iterating, which is what makes the run deterministic). -/
def buildReport (tmap wmap : List (String × JVal)) (tids wids : List String) : Report :=
  let only_t := sortStrings (tids.filter (fun k => !wids.contains k))
  let only_w := sortStrings (wids.filter (fun k => !tids.contains k))
  let common := sortStrings (tids.filter (fun k => wids.contains k))
  let changes := common.filterMap (fun i =>
    let ds := diff_for_item ((jGet tmap i).getD .null) ((jGet wmap i).getD .null) none
    if ds.isEmpty then none else some { id := i, diffs := ds })
  { counts :=
      { tenon_items := tmap.length
        w3c_items := wmap.length
        only_tenon := only_t.length
        only_w3c := only_w.length
        changed_common := changes.length
        common_total := common.length }
    only_tenon := only_t
    only_w3c := only_w
    changes := changes }

/-- The sorted common identifier list `common = sorted(tenon_ids & w3c_ids)`. -/
def commonIds (a b : JVal) : List String :=
  sortStrings (((flatten_items a).map Prod.fst).filter
    (fun k => ((flatten_items b).map Prod.fst).contains k))

/-- The pure part of `main`: build both indices and assemble the report
(`interesting_fields` is `None` in the source, so no field whitelist is
applied). -/
def reconcile (a b : JVal) : Report :=
  let tmap := flatten_items a
  let wmap := flatten_items b
  buildReport tmap wmap (tmap.map Prod.fst) (wmap.map Prod.fst)

/-- Per-character check used to characterize `normStr` fixpoints: every
whitespace character of the list must be a plain `' '` that is followed by a
non-whitespace character. -/
def wsNormTail : List Char → Bool
  | [] => true
  | c :: cs =>
    if isPySpace c then
      (c == ' ') &&
      (match cs with
       | [] => false
       | d :: _ => !isPySpace d) &&
      wsNormTail cs
    else wsNormTail cs

/-- The first character of the list, if any, is not whitespace. -/
def headOkL : List Char → Bool
  | [] => true
  | c :: _ => !isPySpace c

/-- A character list is whitespace-normalized when it does not start with
whitespace and every whitespace character in it is a single `' '` followed
by a non-whitespace character (so it also cannot end in whitespace and
cannot contain two adjacent whitespace characters). -/
def wsNormL (l : List Char) : Bool :=
  headOkL l && wsNormTail l

/-- A string is whitespace-normalized (a fixpoint of the string branch of
`normalize_text`). -/
def wsNormalized (s : String) : Bool := wsNormL s.data

/-- The last character of the list, if any, is not whitespace. -/
def lastOkL : List Char → Bool
  | [] => true
  | [c] => !isPySpace c
  | _ :: c :: cs => lastOkL (c :: cs)

/-- Whether a value is a non-string scalar (`None`, boolean, or number). -/
def jIsScalar : JVal → Bool
  | .null => true
  | .bool _ => true
  | .num _ => true
  | _ => false

/-- Modelled from the spec (amended claim C3): the compared field set is the
union of the two records' key sets, intersected with the allowlist when one
is supplied and non-empty; a missing allowlist and an empty allowlist both
impose no restriction. -/
def specCompareKeys (a b : List (String × JVal)) (wl : Option (List String)) : List String :=
  let u := (a.map Prod.fst ++ b.map Prod.fst).dedup
  match wl with
  | some l => if l.isEmpty then u else u.filter (fun k => l.contains k)
  | none => u

/-- Modelled from the spec (amended claim C4): scan the candidate field
values in order and return the whitespace-trimmed form of the first string
candidate whose trimmed form fully matches the identifier pattern; if there
is none, re-scan the same candidates in order and return the first embedded
match; non-string, missing, or malformed candidates are skipped. -/
def specExtractId (item : JVal) : Option String :=
  match item with
  | .obj kvs =>
    let strCands := candidateKeys.filterMap (fun k =>
      match jGet kvs k with
      | some (.str s) => some s
      | _ => none)
    (match (strCands.filter (fun s => idFullMatch (stripStr s))).head? with
     | some s => some (stripStr s)
     | none => (strCands.filterMap idSearch).head?)
  | _ => none

/-- The document shapes of claim C7: not a sequence, not a mapping with a
conventional wrapper key holding a sequence, and not a mapping containing a
non-empty sequence of mappings. -/
def unsupportedShape (d : JVal) : Prop :=
  (∀ xs, d ≠ .arr xs) ∧
  (∀ kvs, d = .obj kvs →
    (∀ k, k ∈ wrapperKeys → ∀ xs, jGet kvs k ≠ some (.arr xs)) ∧
    (∀ kv, kv ∈ kvs → ∀ xs, kv.2 = .arr xs → xs.isEmpty = true ∨ xs.all jIsObj = false))

/-- Source A of the concrete scenario of claim C1. -/
def srcA : JVal := .arr [.obj [("id", .str "1.1.1 Non-text Content"), ("level", .str "A")]]

/-- Source B of the concrete scenario of claim C1. -/
def srcB : JVal := .arr [.obj [("number", .str "1.1.1"), ("level", .str "AA")]]

theorem dropWhile_head_not {c : Char} {cs : List Char} :
    ∀ l : List Char, l.dropWhile isPySpace = c :: cs → isPySpace c = false := by
  intro l
  induction l with
  | nil => intro h; simp at h
  | cons a as ih =>
    intro h
    rw [List.dropWhile_cons] at h
    by_cases ha : isPySpace a = true
    · rw [if_pos ha] at h; exact ih h
    · rw [if_neg ha] at h
      cases h
      simpa using ha

theorem collapse_fix : ∀ l : List Char, wsNormTail l = true → collapseGo false l = l := by
  intro l
  induction l with
  | nil => intro _; rfl
  | cons c cs ih =>
    intro h
    by_cases hc : isPySpace c = true
    · simp only [wsNormTail, hc, if_true, Bool.and_eq_true] at h
      cases cs with
      | nil => simp at h
      | cons d cs2 =>
        obtain ⟨⟨hsp, hd⟩, htail⟩ := h
        have hceq : c = ' ' := by simpa using hsp
        have hdns : isPySpace d = false := by simpa using hd
        have hrec := ih htail
        simp only [collapseGo, hdns, Bool.false_eq_true, if_false, List.cons.injEq,
          true_and] at hrec
        subst hceq
        simp only [collapseGo, hc, if_true, hdns, Bool.false_eq_true, if_false]
        rw [hrec]
    · have hc' : isPySpace c = false := by simpa using hc
      simp only [wsNormTail, hc', Bool.false_eq_true, if_false] at h
      simp only [collapseGo, hc', Bool.false_eq_true, if_false]
      rw [ih h]

theorem collapseGo_true_head :
    ∀ l : List Char, lastOkL l = true → l ≠ [] →
      ∃ e Y, collapseGo true l = e :: Y ∧ isPySpace e = false := by
  intro l
  induction l with
  | nil => intro _ hne; exact absurd rfl hne
  | cons c cs ih =>
    intro h _
    by_cases hc : isPySpace c = true
    · cases cs with
      | nil => simp [lastOkL, hc] at h
      | cons d cs2 =>
        have h' : lastOkL (d :: cs2) = true := h
        obtain ⟨e, Y, hEq, hNs⟩ := ih h' (by simp)
        exact ⟨e, Y, by simp only [collapseGo, hc, if_true]; exact hEq, hNs⟩
    · have hc' : isPySpace c = false := by simpa using hc
      exact ⟨c, collapseGo false cs, by simp [collapseGo, hc'], hc'⟩

theorem collapse_wsNormTail :
    ∀ (l : List Char) (b : Bool), lastOkL l = true → wsNormTail (collapseGo b l) = true := by
  intro l
  induction l with
  | nil => intro b _; rfl
  | cons c cs ih =>
    intro b h
    by_cases hc : isPySpace c = true
    · cases cs with
      | nil => simp [lastOkL, hc] at h
      | cons d cs2 =>
        have h' : lastOkL (d :: cs2) = true := h
        cases b with
        | true =>
          simp only [collapseGo, hc, if_true]
          exact ih true h'
        | false =>
          have step : collapseGo false (c :: d :: cs2) = ' ' :: collapseGo true (d :: cs2) := by
            simp [collapseGo, hc]
          obtain ⟨e, Y, hEq, hNs⟩ := collapseGo_true_head (d :: cs2) h' (by simp)
          rw [step, hEq]
          have htail : wsNormTail (e :: Y) = true := by rw [← hEq]; exact ih true h'
          have hsp : isPySpace ' ' = true := rfl
          simp only [wsNormTail, hsp, if_true]
          simpa [wsNormTail, hNs] using htail
    · have hc' : isPySpace c = false := by simpa using hc
      have h2 : lastOkL cs = true := by
        cases cs with
        | nil => rfl
        | cons d cs2 => exact h
      simp only [collapseGo, hc', Bool.false_eq_true, if_false]
      simp only [wsNormTail, hc', Bool.false_eq_true, if_false]
      exact ih false h2

theorem lastOkL_eq :
    ∀ l : List Char, lastOkL l = true ↔ (∀ c, l.getLast? = some c → isPySpace c = false) := by
  intro l
  induction l with
  | nil => simp [lastOkL]
  | cons a as ih =>
    cases as with
    | nil => simp [lastOkL]
    | cons d cs2 =>
      rw [List.getLast?_cons_cons]
      exact ih

theorem wsNormTail_lastOkL : ∀ l : List Char, wsNormTail l = true → lastOkL l = true := by
  intro l
  induction l with
  | nil => intro _; rfl
  | cons c cs ih =>
    intro h
    cases cs with
    | nil =>
      by_cases hc : isPySpace c = true
      · simp [wsNormTail, hc] at h
      · simpa [lastOkL] using hc
    | cons d cs2 =>
      have h2 : wsNormTail (d :: cs2) = true := by
        by_cases hc : isPySpace c = true
        · simp only [wsNormTail, hc, if_true, Bool.and_eq_true] at h
          exact h.2
        · have hc' : isPySpace c = false := by simpa using hc
          simpa only [wsNormTail, hc', Bool.false_eq_true, if_false] using h
      exact ih h2

theorem dropTrailWs_decomp (m : List Char) :
    m = dropTrailWs m ++ (m.reverse.takeWhile isPySpace).reverse := by
  unfold dropTrailWs
  rw [← List.reverse_append]
  rw [List.takeWhile_append_dropWhile isPySpace]
  rw [List.reverse_reverse]

theorem pyStripL_decomp (l : List Char) :
    ∃ t : List Char, l.dropWhile isPySpace = pyStripL l ++ t := by
  exact ⟨_, dropTrailWs_decomp (l.dropWhile isPySpace)⟩

theorem pyStripL_head {c : Char} {cs : List Char} (l : List Char)
    (h : pyStripL l = c :: cs) : isPySpace c = false := by
  obtain ⟨t, ht⟩ := pyStripL_decomp l
  rw [h] at ht
  exact dropWhile_head_not l ht

theorem pyStripL_lastOk (l : List Char) : lastOkL (pyStripL l) = true := by
  rw [lastOkL_eq]
  intro c hc
  unfold pyStripL dropTrailWs at hc
  rw [List.getLast?_reverse] at hc
  cases hhead : ((l.dropWhile isPySpace).reverse.dropWhile isPySpace) with
  | nil => rw [hhead] at hc; simp at hc
  | cons e Y =>
    rw [hhead] at hc
    simp only [List.head?_cons, Option.some.injEq] at hc
    subst hc
    exact dropWhile_head_not _ hhead

theorem wsNormL_normStrL (l : List Char) : wsNormL (normStrL l) = true := by
  unfold normStrL
  cases hp : pyStripL l with
  | nil => rfl
  | cons c cs =>
    have hcns : isPySpace c = false := pyStripL_head l hp
    have hlast : lastOkL (pyStripL l) = true := pyStripL_lastOk l
    rw [hp] at hlast
    have htail : wsNormTail (collapseGo false (c :: cs)) = true :=
      collapse_wsNormTail (c :: cs) false hlast
    have hstep : collapseGo false (c :: cs) = c :: collapseGo false cs := by
      simp [collapseGo, hcns]
    rw [hstep] at htail ⊢
    simp [wsNormL, headOkL, hcns, htail]

theorem normStrL_of_wsNormL (l : List Char) (h : wsNormL l = true) : normStrL l = l := by
  have hhead : headOkL l = true := by
    simp only [wsNormL, Bool.and_eq_true] at h; exact h.1
  have htail : wsNormTail l = true := by
    simp only [wsNormL, Bool.and_eq_true] at h; exact h.2
  have hlast : lastOkL l = true := wsNormTail_lastOkL l htail
  have hdrop : l.dropWhile isPySpace = l := by
    cases l with
    | nil => rfl
    | cons c cs =>
      have hcns : isPySpace c = false := by simpa [headOkL] using hhead
      simp [List.dropWhile_cons, hcns]
  have hdropTrail : dropTrailWs l = l := by
    unfold dropTrailWs
    cases hrev : l.reverse with
    | nil =>
      have hnil : l = [] := by simpa using congrArg List.reverse hrev
      subst hnil
      rfl
    | cons e Y =>
      have hLast : l.getLast? = some e := by
        rw [← List.head?_reverse, hrev, List.head?_cons]
      have hens : isPySpace e = false := (lastOkL_eq l).mp hlast e hLast
      rw [List.dropWhile_cons, hens]
      simp only [Bool.false_eq_true, if_false]
      rw [← hrev, List.reverse_reverse]
  unfold normStrL pyStripL
  rw [hdrop, hdropTrail]
  exact collapse_fix l htail

theorem normStr_fix_iff (t : String) : normStr t = t ↔ wsNormL t.data = true := by
  constructor
  · intro h
    have h1 : wsNormL (normStrL t.data) = true := wsNormL_normStrL t.data
    have h2 : (normStr t).data = t.data := congrArg String.data h
    have h3 : normStrL t.data = t.data := h2
    rw [h3] at h1
    exact h1
  · intro h
    show String.mk (normStrL t.data) = t
    rw [normStrL_of_wsNormL t.data h]

theorem normStrL_all_ws (l : List Char) (h : ∀ c ∈ l, isPySpace c = true) : normStrL l = [] := by
  have hdrop : l.dropWhile isPySpace = [] := List.dropWhile_eq_nil_iff.mpr h
  unfold normStrL pyStripL
  rw [hdrop]
  rfl

theorem wsNormL_of_no_ws (l : List Char) (h : ∀ c ∈ l, isPySpace c = false) :
    wsNormL l = true := by
  have htail : ∀ m : List Char, (∀ c ∈ m, isPySpace c = false) → wsNormTail m = true := by
    intro m
    induction m with
    | nil => intro _; rfl
    | cons c cs ih =>
      intro hm
      have hc : isPySpace c = false := hm c (by simp)
      simp only [wsNormTail, hc, Bool.false_eq_true, if_false]
      exact ih (fun d hd => hm d (by simp [hd]))
  cases l with
  | nil => rfl
  | cons c cs =>
    have hc : isPySpace c = false := h c (by simp)
    simp [wsNormL, headOkL, hc, htail _ h]

theorem natDigitsAux_chars :
    ∀ (fuel n : Nat) (c : Char), c ∈ natDigitsAux fuel n → ∃ d, c = digitCharOf d := by
  intro fuel
  induction fuel with
  | zero => intro n c h; simp [natDigitsAux] at h
  | succ f ih =>
    intro n c h
    by_cases hn : n < 10
    · simp only [natDigitsAux, hn, if_true, List.mem_singleton] at h
      exact ⟨n, h⟩
    · simp only [natDigitsAux, hn, if_false, List.mem_append, List.mem_singleton] at h
      rcases h with h | h
      · exact ih (n / 10) c h
      · exact ⟨n, h⟩

theorem isPySpace_digitCharOf (d : Nat) : isPySpace (digitCharOf d) = false := by
  unfold digitCharOf
  have h : d % 10 < 10 := Nat.mod_lt _ (by norm_num)
  have h10 : d % 10 = 0 ∨ d % 10 = 1 ∨ d % 10 = 2 ∨ d % 10 = 3 ∨ d % 10 = 4 ∨
      d % 10 = 5 ∨ d % 10 = 6 ∨ d % 10 = 7 ∨ d % 10 = 8 ∨ d % 10 = 9 := by omega
  rcases h10 with h' | h' | h' | h' | h' | h' | h' | h' | h' | h' <;> rw [h'] <;> decide

theorem intRepr_no_ws (n : Int) : ∀ c ∈ (intRepr n).data, isPySpace c = false := by
  have hnat : ∀ (m : Nat) (c : Char), c ∈ (natRepr m).data → isPySpace c = false := by
    intro m c hc
    obtain ⟨d, hd⟩ := natDigitsAux_chars (m + 1) m c hc
    rw [hd]
    exact isPySpace_digitCharOf d
  cases n with
  | ofNat m => exact fun c hc => hnat m c hc
  | negSucc m =>
    intro c hc
    have : c ∈ ("-" : String).data ++ (natRepr (m + 1)).data := hc
    rcases List.mem_append.mp this with h | h
    · simp at h
      rw [h]
      decide
    · exact hnat (m + 1) c h

theorem scalar_norm_fix (v : JVal) (h : jIsScalar v = true) :
    normStr (normalize_text v) = normalize_text v := by
  cases v with
  | null => decide
  | bool b => cases b <;> decide
  | num n =>
    have hrepr : normalize_text (.num n) = intRepr n := rfl
    rw [hrepr]
    exact (normStr_fix_iff _).mpr (wsNormL_of_no_ws _ (intRepr_no_ws n))
  | str s => simp [jIsScalar] at h
  | arr xs => simp [jIsScalar] at h
  | obj kvs => simp [jIsScalar] at h

theorem mkFieldDiff_field {a b : JVal} {k : String} {d : FieldDiff}
    (h : mkFieldDiff a b k = some d) : d.field = k := by
  simp only [mkFieldDiff] at h
  split at h
  · exact absurd h (by simp)
  · split at h
    · split at h
      · cases h; rfl
      · cases h; rfl
    · cases h; rfl

theorem not_mem_fields_of_none {a b : JVal} {k : String} (wl : Option (List String))
    (h : mkFieldDiff a b k = none) :
    k ∉ (diff_for_item a b wl).map FieldDiff.field := by
  intro hmem
  obtain ⟨d, hd, hfield⟩ := List.mem_map.mp hmem
  obtain ⟨k2, _, hmk⟩ := List.mem_filterMap.mp hd
  have hk2 : d.field = k2 := mkFieldDiff_field hmk
  rw [hk2] at hfield
  rw [hfield] at hmk
  rw [h] at hmk
  cases hmk

/-- Claim C2, counterexample: the canonical composite form of the value
`["a  b"]` is the string `["a  b"]` (with the inner double space preserved),
and re-normalizing that string collapses the run, so normalization is not
idempotent on canonical composite forms. -/
theorem normalize_text_composite_not_idempotent :
    normalize_text (.str (normalize_text (.arr [.str "a  b"]))) ≠
      normalize_text (.arr [.str "a  b"]) := by
  decide

/-- Claim C2 (amended): normalization is idempotent on plain string values;
for a general value, re-normalizing the produced string is a no-op exactly
when that string is already whitespace-normalized, which the canonical form
of a composite value need not be. -/
theorem normalize_text_idempotence :
    (∀ s : String,
      normalize_text (.str (normalize_text (.str s))) = normalize_text (.str s)) ∧
    (∀ v : JVal,
      normalize_text (.str (normalize_text v)) = normalize_text v ↔
        wsNormalized (normalize_text v) = true) := by
  constructor
  · intro s
    show normStr (normStr s) = normStr s
    exact (normStr_fix_iff _).mpr (wsNormL_normStrL s.data)
  · intro v
    show normStr (normalize_text v) = normalize_text v ↔ _
    exact normStr_fix_iff _

/-- Claim C9: a whitespace-only (or empty) string field on one side and a
missing field on the other both normalize to the empty string, so the Field
Differ emits no difference for that field. -/
theorem whitespace_only_equals_missing
    (a b : List (String × JVal)) (wl : Option (List String)) (k s : String)
    (hws : s.data.all isPySpace = true)
    (h : (jGet a k = some (.str s) ∧ jGet b k = none) ∨
         (jGet b k = some (.str s) ∧ jGet a k = none)) :
    k ∉ (diff_for_item (.obj a) (.obj b) wl).map FieldDiff.field := by
  apply not_mem_fields_of_none wl
  have hnorm : normStr s = "" := by
    show String.mk (normStrL s.data) = ""
    rw [normStrL_all_ws s.data (by simpa [List.all_eq_true] using hws)]
  rcases h with ⟨ha, hb⟩ | ⟨hb, ha⟩ <;>
    simp [mkFieldDiff, vGet, ha, hb, normalize_text, hnorm]

/-- Claim C9, witness at a concrete input. -/
theorem whitespace_only_equals_missing_witness :
    "note" ∉ (diff_for_item (.obj [("note", .str "   ")]) (.obj []) none).map
      FieldDiff.field :=
  whitespace_only_equals_missing [("note", .str "   ")] [] none "note" "   "
    (by decide) (Or.inl ⟨rfl, rfl⟩)

/-- Claim C10: a non-string scalar on one side and, on the other side,
exactly the string that normalization renders it to, normalize identically,
so no Field Difference is emitted for that field. -/
theorem scalar_conflated_with_rendering
    (a b : List (String × JVal)) (wl : Option (List String)) (k : String) (v : JVal)
    (hscalar : jIsScalar v = true)
    (h : (jGet a k = some v ∧ jGet b k = some (.str (normalize_text v))) ∨
         (jGet b k = some v ∧ jGet a k = some (.str (normalize_text v)))) :
    k ∉ (diff_for_item (.obj a) (.obj b) wl).map FieldDiff.field := by
  apply not_mem_fields_of_none wl
  have hfix : normalize_text (JVal.str (normalize_text v)) = normalize_text v :=
    scalar_norm_fix v hscalar
  rcases h with ⟨ha, hb⟩ | ⟨hb, ha⟩ <;>
    simp [mkFieldDiff, vGet, ha, hb, hfix]

/-- Claim C10, witness at a concrete input: the number `1` against the
string `"1"`. -/
theorem scalar_conflated_with_rendering_witness :
    "n" ∉ (diff_for_item (.obj [("n", .num 1)]) (.obj [("n", .str "1")]) none).map
      FieldDiff.field :=
  scalar_conflated_with_rendering [("n", .num 1)] [("n", .str "1")] none "n" (.num 1)
    rfl (Or.inl ⟨rfl, rfl⟩)

/-- Claim C1, counterexample: in the concrete scenario the single
changed-common entry carries three Field Differences (on `id`, `level` and
`number`), not a single one — the differ compares the union of both records'
keys, and `id`/`number` each exist on only one side. -/
theorem concrete_scenario_not_single_diff :
    (reconcile srcA srcB).changes.map (fun c => c.diffs.length) = [3] ∧ (3 : Nat) ≠ 1 :=
  ⟨rfl, by decide⟩

/-- Claim C1 (amended): the scenario yields empty only-A and only-B lists and
exactly one changed-common entry for `1.1.1`, whose diff list holds three
Field Differences in key order: `id` (`"1.1.1 Non-text Content"` vs absent),
`level` (`"A"` vs `"AA"`), `number` (absent vs `"1.1.1"`), none carrying
line-diff text. -/
theorem concrete_scenario_report :
    reconcile srcA srcB =
      ⟨⟨1, 1, 0, 0, 1, 1⟩, [], [],
       [⟨"1.1.1",
         [⟨"id", .str "1.1.1 Non-text Content", .null, none⟩,
          ⟨"level", .str "A", .str "AA", none⟩,
          ⟨"number", .null, .str "1.1.1", none⟩]⟩]⟩ := rfl

theorem mkFieldDiff_spec (a b : JVal) (k : String) (d : FieldDiff)
    (h : mkFieldDiff a b k = some d) :
    d.tenon = vGet a k ∧ d.w3c = vGet b k ∧
    ((∃ sa sb, vGet a k = .str sa ∧ vGet b k = .str sb ∧ sa.length + sb.length > 80 ∧
        d.diff = some (unifiedDiffText sa sb)) ∨
     (d.diff = none ∧ ∀ sa sb, vGet a k = .str sa → vGet b k = .str sb →
        sa.length + sb.length ≤ 80)) := by
  simp only [mkFieldDiff] at h
  split at h
  · cases h
  · rcases hv : vGet a k with _ | bb | nn | sa | xs | kvs <;>
      rcases hw : vGet b k with _ | bb2 | nn2 | sb | xs2 | kvs2 <;>
      rw [hv, hw] at h <;>
      simp only [] at h
    case str.str =>
      split at h
      · cases h
        refine ⟨rfl, rfl, Or.inl ⟨sa, sb, rfl, rfl, by assumption, rfl⟩⟩
      · cases h
        refine ⟨rfl, rfl, Or.inr ⟨rfl, ?_⟩⟩
        intro sa2 sb2 h1 h2
        cases h1; cases h2
        omega
    all_goals
      cases h
    all_goals
      refine ⟨rfl, rfl, Or.inr ⟨rfl, ?_⟩⟩
    all_goals
      intro sa2 sb2 h1 h2
    all_goals
      simp at h1 h2

/-- Claim C5: an entry emitted by the Field Differ carries the unified
line-diff text (with source A rendered as the `from` side and source B as
the `to` side) precisely when both raw values are strings whose raw lengths
sum to strictly more than 80; in every other case — combined length exactly
80 included, and any non-string raw value included — the diff text is
absent. -/
theorem diff_text_threshold
    (a b : List (String × JVal)) (wl : Option (List String)) (d : FieldDiff)
    (hd : d ∈ diff_for_item (.obj a) (.obj b) wl) :
    (∃ sa sb, d.tenon = .str sa ∧ d.w3c = .str sb ∧ sa.length + sb.length > 80 ∧
      d.diff = some (unifiedDiffText sa sb)) ∨
    (d.diff = none ∧
      ∀ sa sb, d.tenon = .str sa → d.w3c = .str sb → sa.length + sb.length ≤ 80) := by
  obtain ⟨k, _, hmk⟩ := List.mem_filterMap.mp hd
  obtain ⟨ht, hw, hdisj⟩ := mkFieldDiff_spec _ _ k d hmk
  rw [← ht, ← hw] at hdisj
  exact hdisj

/-- Claim C5, witness: an 80-character string against a 1-character string
(combined length 81) produces an entry carrying the diff text. -/
theorem diff_text_threshold_witness :
    (⟨"text", .str "aaaaaaaaaaaaaaaaaaaaaaaaaaaaaaaaaaaaaaaaaaaaaaaaaaaaaaaaaaaaaaaaaaaaaaaaaaaaaaaa", .str "x", some (unifiedDiffText "aaaaaaaaaaaaaaaaaaaaaaaaaaaaaaaaaaaaaaaaaaaaaaaaaaaaaaaaaaaaaaaaaaaaaaaaaaaaaaaa" "x")⟩ : FieldDiff) ∈
      diff_for_item (.obj [("text", .str "aaaaaaaaaaaaaaaaaaaaaaaaaaaaaaaaaaaaaaaaaaaaaaaaaaaaaaaaaaaaaaaaaaaaaaaaaaaaaaaa")])
        (.obj [("text", .str "x")]) none ∧
    ((∃ sa sb, (⟨"text", .str "aaaaaaaaaaaaaaaaaaaaaaaaaaaaaaaaaaaaaaaaaaaaaaaaaaaaaaaaaaaaaaaaaaaaaaaaaaaaaaaa", .str "x", some (unifiedDiffText "aaaaaaaaaaaaaaaaaaaaaaaaaaaaaaaaaaaaaaaaaaaaaaaaaaaaaaaaaaaaaaaaaaaaaaaaaaaaaaaa" "x")⟩ : FieldDiff).tenon = .str sa ∧ (⟨"text", .str "aaaaaaaaaaaaaaaaaaaaaaaaaaaaaaaaaaaaaaaaaaaaaaaaaaaaaaaaaaaaaaaaaaaaaaaaaaaaaaaa", .str "x", some (unifiedDiffText "aaaaaaaaaaaaaaaaaaaaaaaaaaaaaaaaaaaaaaaaaaaaaaaaaaaaaaaaaaaaaaaaaaaaaaaaaaaaaaaa" "x")⟩ : FieldDiff).w3c = .str sb ∧
        sa.length + sb.length > 80 ∧ (⟨"text", .str "aaaaaaaaaaaaaaaaaaaaaaaaaaaaaaaaaaaaaaaaaaaaaaaaaaaaaaaaaaaaaaaaaaaaaaaaaaaaaaaa", .str "x", some (unifiedDiffText "aaaaaaaaaaaaaaaaaaaaaaaaaaaaaaaaaaaaaaaaaaaaaaaaaaaaaaaaaaaaaaaaaaaaaaaaaaaaaaaa" "x")⟩ : FieldDiff).diff = some (unifiedDiffText sa sb)) ∨
     ((⟨"text", .str "aaaaaaaaaaaaaaaaaaaaaaaaaaaaaaaaaaaaaaaaaaaaaaaaaaaaaaaaaaaaaaaaaaaaaaaaaaaaaaaa", .str "x", some (unifiedDiffText "aaaaaaaaaaaaaaaaaaaaaaaaaaaaaaaaaaaaaaaaaaaaaaaaaaaaaaaaaaaaaaaaaaaaaaaaaaaaaaaa" "x")⟩ : FieldDiff).diff = none ∧
      ∀ sa sb, (⟨"text", .str "aaaaaaaaaaaaaaaaaaaaaaaaaaaaaaaaaaaaaaaaaaaaaaaaaaaaaaaaaaaaaaaaaaaaaaaaaaaaaaaa", .str "x", some (unifiedDiffText "aaaaaaaaaaaaaaaaaaaaaaaaaaaaaaaaaaaaaaaaaaaaaaaaaaaaaaaaaaaaaaaaaaaaaaaaaaaaaaaa" "x")⟩ : FieldDiff).tenon = .str sa → (⟨"text", .str "aaaaaaaaaaaaaaaaaaaaaaaaaaaaaaaaaaaaaaaaaaaaaaaaaaaaaaaaaaaaaaaaaaaaaaaaaaaaaaaa", .str "x", some (unifiedDiffText "aaaaaaaaaaaaaaaaaaaaaaaaaaaaaaaaaaaaaaaaaaaaaaaaaaaaaaaaaaaaaaaaaaaaaaaaaaaaaaaa" "x")⟩ : FieldDiff).w3c = .str sb →
        sa.length + sb.length ≤ 80)) := by
  have hmem :
      (⟨"text", .str "aaaaaaaaaaaaaaaaaaaaaaaaaaaaaaaaaaaaaaaaaaaaaaaaaaaaaaaaaaaaaaaaaaaaaaaaaaaaaaaa", .str "x", some (unifiedDiffText "aaaaaaaaaaaaaaaaaaaaaaaaaaaaaaaaaaaaaaaaaaaaaaaaaaaaaaaaaaaaaaaaaaaaaaaaaaaaaaaa" "x")⟩ : FieldDiff) ∈
      diff_for_item (.obj [("text", .str "aaaaaaaaaaaaaaaaaaaaaaaaaaaaaaaaaaaaaaaaaaaaaaaaaaaaaaaaaaaaaaaaaaaaaaaaaaaaaaaa")])
        (.obj [("text", .str "x")]) none := by
    have hev : diff_for_item (.obj [("text", .str "aaaaaaaaaaaaaaaaaaaaaaaaaaaaaaaaaaaaaaaaaaaaaaaaaaaaaaaaaaaaaaaaaaaaaaaaaaaaaaaa")])
        (.obj [("text", .str "x")]) none =
        [(⟨"text", .str "aaaaaaaaaaaaaaaaaaaaaaaaaaaaaaaaaaaaaaaaaaaaaaaaaaaaaaaaaaaaaaaaaaaaaaaaaaaaaaaa", .str "x", some (unifiedDiffText "aaaaaaaaaaaaaaaaaaaaaaaaaaaaaaaaaaaaaaaaaaaaaaaaaaaaaaaaaaaaaaaaaaaaaaaaaaaaaaaa" "x")⟩ : FieldDiff)] := rfl
    rw [hev]
    exact List.mem_singleton.mpr rfl
  exact ⟨hmem, diff_text_threshold _ _ none _ hmem⟩

theorem passExact_eq (cs : List (Option JVal)) :
    passExact cs = ((cs.filterMap (fun c => match c with
        | some (.str s) => some s
        | _ => none)).filter (fun s => idFullMatch (stripStr s))).head?.map stripStr := by
  induction cs with
  | nil => rfl
  | cons c rest ih =>
    cases c with
    | none => simpa [passExact, List.filterMap_cons] using ih
    | some v =>
      cases v with
      | str s =>
        by_cases hm : idFullMatch (stripStr s) = true
        · simp [passExact, hm, List.filterMap_cons, List.filter_cons]
        · have hm' : idFullMatch (stripStr s) = false := by simpa using hm
          simpa [passExact, hm', List.filterMap_cons, List.filter_cons] using ih
      | null => simpa [passExact, List.filterMap_cons] using ih
      | bool bb => simpa [passExact, List.filterMap_cons] using ih
      | num nn => simpa [passExact, List.filterMap_cons] using ih
      | arr xs => simpa [passExact, List.filterMap_cons] using ih
      | obj kvs => simpa [passExact, List.filterMap_cons] using ih

theorem passLoose_eq (cs : List (Option JVal)) :
    passLoose cs = ((cs.filterMap (fun c => match c with
        | some (.str s) => some s
        | _ => none)).filterMap idSearch).head? := by
  induction cs with
  | nil => rfl
  | cons c rest ih =>
    cases c with
    | none => simpa [passLoose, List.filterMap_cons] using ih
    | some v =>
      cases v with
      | str s =>
        cases his : idSearch s with
        | some m => simp [passLoose, his, List.filterMap_cons]
        | none => simpa [passLoose, his, List.filterMap_cons] using ih
      | null => simpa [passLoose, List.filterMap_cons] using ih
      | bool bb => simpa [passLoose, List.filterMap_cons] using ih
      | num nn => simpa [passLoose, List.filterMap_cons] using ih
      | arr xs => simpa [passLoose, List.filterMap_cons] using ih
      | obj kvs => simpa [passLoose, List.filterMap_cons] using ih

/-- Claim C4 (amended): identifier extraction is the strict two-pass priority
of the spec-side `specExtractId`, with the one amendment that the first pass
tests (and returns) the candidate after trimming surrounding whitespace:
the first string candidate whose trimmed form fully matches the pattern is
returned; only if there is none are the same candidates re-scanned in order
for the first embedded occurrence; non-string, missing, or malformed
candidates are skipped without error.  An exact (trimmed) full match on a
later candidate field therefore takes priority over an embedded match inside
an earlier candidate field. -/
theorem extract_id_two_pass (item : JVal) : extract_id item = specExtractId item := by
  cases item with
  | obj kvs =>
    show (match passExact (candidateKeys.map (jGet kvs)) with
          | some s => some s
          | none => passLoose (candidateKeys.map (jGet kvs))) = _
    rw [passExact_eq, passLoose_eq]
    simp only [List.filterMap_map]
    have hcomp : ((fun c => match c with
        | some (JVal.str s) => some s
        | _ => none) ∘ jGet kvs) = (fun k => match jGet kvs k with
        | some (JVal.str s) => some s
        | _ => none) := rfl
    rw [hcomp]
    simp only [specExtractId]
    cases ((candidateKeys.filterMap (fun k => match jGet kvs k with
        | some (JVal.str s) => some s
        | _ => none)).filter (fun s => idFullMatch (stripStr s))).head? with
    | some s => rfl
    | none => rfl
  | null => rfl
  | bool b => rfl
  | num n => rfl
  | str s => rfl
  | arr xs => rfl

/-- Claim C4, counterexample: the first pass strips candidates before the
full match and returns the stripped value, so a whitespace-padded exact
identifier in an earlier candidate field (here `"id"`) wins even though,
read literally, it is not a string fully matching the pattern while a later
candidate (here `"scId"`) is. -/
theorem exact_pass_strips_counterexample :
    extract_id (.obj [("id", .str " 2.2.2 "), ("scId", .str "1.1.1")]) = some "2.2.2" ∧
    idFullMatch " 2.2.2 " = false ∧ idFullMatch "1.1.1" = true :=
  ⟨rfl, rfl, rfl⟩

theorem charListLe_total : ∀ l1 l2 : List Char, charListLe l1 l2 = true ∨ charListLe l2 l1 = true := by
  intro l1
  induction l1 with
  | nil => intro l2; left; rfl
  | cons a as ih =>
    intro l2
    cases l2 with
    | nil => right; rfl
    | cons b bs =>
      rcases lt_trichotomy a b with h | h | h
      · left; simp [charListLe, h]
      · subst h
        rcases ih bs with h2 | h2
        · left; simp [charListLe, lt_irrefl, h2]
        · right; simp [charListLe, lt_irrefl, h2]
      · right; simp [charListLe, h]

theorem charListLe_trans :
    ∀ l1 l2 l3 : List Char, charListLe l1 l2 = true → charListLe l2 l3 = true →
      charListLe l1 l3 = true := by
  intro l1
  induction l1 with
  | nil => intro l2 l3 _ _; rfl
  | cons a as ih =>
    intro l2 l3 h1 h2
    cases l2 with
    | nil => simp [charListLe] at h1
    | cons b bs =>
      cases l3 with
      | nil => simp [charListLe] at h2
      | cons c cs =>
        rcases lt_trichotomy a b with hab | hab | hab
        · rcases lt_trichotomy b c with hbc | hbc | hbc
          · simp [charListLe, lt_trans hab hbc]
          · subst hbc; simp [charListLe, hab]
          · simp [charListLe, lt_asymm hbc, hbc] at h2
        · subst hab
          rcases lt_trichotomy a c with hac | hac | hac
          · simp [charListLe, hac]
          · subst hac
            simp [charListLe, lt_irrefl] at h1 h2 ⊢
            exact ih bs cs h1 h2
          · simp [charListLe, lt_asymm hac, hac] at h2
        · simp [charListLe, lt_asymm hab, hab] at h1

theorem charListLe_antisymm :
    ∀ l1 l2 : List Char, charListLe l1 l2 = true → charListLe l2 l1 = true → l1 = l2 := by
  intro l1
  induction l1 with
  | nil =>
    intro l2 _ h2
    cases l2 with
    | nil => rfl
    | cons b bs => simp [charListLe] at h2
  | cons a as ih =>
    intro l2 h1 h2
    cases l2 with
    | nil => simp [charListLe] at h1
    | cons b bs =>
      rcases lt_trichotomy a b with hab | hab | hab
      · simp [charListLe, lt_asymm hab, hab] at h2
      · subst hab
        simp [charListLe, lt_irrefl] at h1 h2
        rw [ih bs h1 h2]
      · simp [charListLe, lt_asymm hab, hab] at h1

instance : IsTotal String strLeP :=
  ⟨fun a b => charListLe_total a.data b.data⟩

instance : IsTrans String strLeP :=
  ⟨fun a b c h1 h2 => charListLe_trans a.data b.data c.data h1 h2⟩

instance : IsAntisymm String strLeP :=
  ⟨fun a b h1 h2 => by
    have h : a.data = b.data := charListLe_antisymm a.data b.data h1 h2
    show String.mk a.data = String.mk b.data
    rw [h]⟩

theorem sortStrings_perm (l : List String) : List.Perm (sortStrings l) l :=
  List.perm_insertionSort strLeP l

theorem sortStrings_sorted (l : List String) : List.Sorted strLeP (sortStrings l) :=
  List.sorted_insertionSort strLeP l

theorem mem_sortStrings {k : String} {l : List String} : k ∈ sortStrings l ↔ k ∈ l :=
  (sortStrings_perm l).mem_iff

theorem sortStrings_eq_of_perm {l1 l2 : List String} (h : List.Perm l1 l2) :
    sortStrings l1 = sortStrings l2 :=
  List.eq_of_perm_of_sorted
    ((sortStrings_perm l1).trans (h.trans (sortStrings_perm l2).symm))
    (sortStrings_sorted l1) (sortStrings_sorted l2)

theorem mkFieldDiff_eq_none_iff (a b : JVal) (k : String) :
    mkFieldDiff a b k = none ↔
      normalize_text (vGet a k) = normalize_text (vGet b k) := by
  by_cases h : normalize_text (vGet a k) = normalize_text (vGet b k)
  · simp [mkFieldDiff, h]
  · simp only [mkFieldDiff, if_neg h]
    constructor
    · intro hcontra
      exfalso
      split at hcontra
      · split at hcontra <;> simp at hcontra
      · simp at hcontra
    · intro he
      exact absurd he h

theorem mem_diffKeys_iff (a b : List (String × JVal)) (wl : Option (List String)) (k : String) :
    k ∈ diffKeys (.obj a) (.obj b) wl ↔ k ∈ specCompareKeys a b wl := by
  unfold diffKeys specCompareKeys
  simp only [objKeys]
  rw [mem_sortStrings]
  cases wl with
  | none => simp [wlActive]
  | some l =>
    by_cases hl : l.isEmpty = true
    · simp [wlActive, hl]
    · have hl' : l.isEmpty = false := by simpa using hl
      simp [wlActive, hl']

/-- Claim C3, counterexample: an empty allowlist is falsy in Python
(`if key_whitelist:`), so it imposes no restriction at all — the differ
still compares the full key union and returns a non-empty difference list,
not the empty one the claim predicts. -/
theorem empty_allowlist_counterexample :
    diff_for_item (.obj [("level", .str "A")]) (.obj [("level", .str "AA")]) (some []) =
      [⟨"level", .str "A", .str "AA", none⟩] ∧
    ([⟨"level", JVal.str "A", JVal.str "AA", none⟩] : List FieldDiff) ≠ [] :=
  ⟨rfl, by simp⟩

/-- Claim C3 (amended): a field name produces a difference exactly when it
lies in the spec-side compare set — the union of both records' keys,
intersected with the allowlist only when the allowlist is supplied and
non-empty (an empty allowlist, being falsy, restricts nothing) — and the two
normalized values at that field differ.  With no allowlist the full union is
compared. -/
theorem compare_set_characterization
    (a b : List (String × JVal)) (wl : Option (List String)) (k : String) :
    (∃ d ∈ diff_for_item (.obj a) (.obj b) wl, d.field = k) ↔
    (k ∈ specCompareKeys a b wl ∧
      normalize_text (vGet (.obj a) k) ≠ normalize_text (vGet (.obj b) k)) := by
  constructor
  · rintro ⟨d, hd, hfield⟩
    obtain ⟨k2, hk2, hmk⟩ := List.mem_filterMap.mp hd
    have hf : d.field = k2 := mkFieldDiff_field hmk
    have hkk : k2 = k := by rw [← hfield, hf]
    refine ⟨(mem_diffKeys_iff a b wl k).mp ?_, ?_⟩
    · rw [← hkk]
      exact hk2
    · intro he
      have hn : mkFieldDiff (.obj a) (.obj b) k2 = none := by
        rw [hkk]
        exact (mkFieldDiff_eq_none_iff (.obj a) (.obj b) k).mpr he
      rw [hn] at hmk
      cases hmk
  · rintro ⟨hmem, hne⟩
    have hk : k ∈ diffKeys (.obj a) (.obj b) wl := (mem_diffKeys_iff a b wl k).mpr hmem
    have hnn : mkFieldDiff (.obj a) (.obj b) k ≠ none := by
      intro hn0
      exact hne ((mkFieldDiff_eq_none_iff (.obj a) (.obj b) k).mp hn0)
    obtain ⟨d, hd⟩ := Option.ne_none_iff_exists'.mp hnn
    exact ⟨d, List.mem_filterMap.mpr ⟨k, hk, hd⟩, mkFieldDiff_field hd⟩

theorem reconcile_only_tenon (a b : JVal) :
    (reconcile a b).only_tenon =
      sortStrings (((flatten_items a).map Prod.fst).filter
        (fun k => !((flatten_items b).map Prod.fst).contains k)) := rfl

theorem reconcile_only_w3c (a b : JVal) :
    (reconcile a b).only_w3c =
      sortStrings (((flatten_items b).map Prod.fst).filter
        (fun k => !((flatten_items a).map Prod.fst).contains k)) := rfl

theorem reconcile_changes (a b : JVal) :
    (reconcile a b).changes =
      (commonIds a b).filterMap (fun i =>
        let ds := diff_for_item ((jGet (flatten_items a) i).getD .null)
          ((jGet (flatten_items b) i).getD .null) none
        if ds.isEmpty then none else some ⟨i, ds⟩) := rfl

theorem reconcile_counts (a b : JVal) :
    (reconcile a b).counts.changed_common = (reconcile a b).changes.length ∧
    (reconcile a b).counts.common_total = (commonIds a b).length := ⟨rfl, rfl⟩

theorem contains_eq_decide_mem (l : List String) (k : String) :
    l.contains k = decide (k ∈ l) := List.elem_eq_mem k l

/-- Claim C6: in every assembled report, the only-A list and the common
identifier set partition the key set of Index A (disjoint, union equal), and
symmetrically for B; and the changed-common count never exceeds the
total-common count. -/
theorem report_partition_invariant (a b : JVal) :
    (∀ k, (k ∈ (reconcile a b).only_tenon ∨ k ∈ commonIds a b) ↔
      k ∈ (flatten_items a).map Prod.fst) ∧
    (∀ k, ¬(k ∈ (reconcile a b).only_tenon ∧ k ∈ commonIds a b)) ∧
    (∀ k, (k ∈ (reconcile a b).only_w3c ∨ k ∈ commonIds a b) ↔
      k ∈ (flatten_items b).map Prod.fst) ∧
    (∀ k, ¬(k ∈ (reconcile a b).only_w3c ∧ k ∈ commonIds a b)) ∧
    (reconcile a b).counts.changed_common ≤ (reconcile a b).counts.common_total := by
  have honly : ∀ k, k ∈ (reconcile a b).only_tenon ↔
      (k ∈ (flatten_items a).map Prod.fst ∧ ¬k ∈ (flatten_items b).map Prod.fst) := by
    intro k
    rw [reconcile_only_tenon, mem_sortStrings, List.mem_filter]
    simp [contains_eq_decide_mem]
  have honlyw : ∀ k, k ∈ (reconcile a b).only_w3c ↔
      (k ∈ (flatten_items b).map Prod.fst ∧ ¬k ∈ (flatten_items a).map Prod.fst) := by
    intro k
    rw [reconcile_only_w3c, mem_sortStrings, List.mem_filter]
    simp [contains_eq_decide_mem]
  have hcommon : ∀ k, k ∈ commonIds a b ↔
      (k ∈ (flatten_items a).map Prod.fst ∧ k ∈ (flatten_items b).map Prod.fst) := by
    intro k
    unfold commonIds
    rw [mem_sortStrings, List.mem_filter]
    simp [contains_eq_decide_mem]
  refine ⟨?_, ?_, ?_, ?_, ?_⟩
  · intro k
    rw [honly k, hcommon k]
    tauto
  · intro k
    rw [honly k, hcommon k]
    tauto
  · intro k
    rw [honlyw k, hcommon k]
    tauto
  · intro k
    rw [honlyw k, hcommon k]
    tauto
  · rw [(reconcile_counts a b).1, (reconcile_counts a b).2, reconcile_changes]
    exact List.length_filterMap_le _ _

theorem findWrapper_none (kvs : List (String × JVal)) :
    ∀ ks : List String, (∀ k ∈ ks, ∀ xs, jGet kvs k ≠ some (.arr xs)) →
      findWrapper kvs ks = none := by
  intro ks
  induction ks with
  | nil => intro _; rfl
  | cons k rest ih =>
    intro h
    show (match jGet kvs k with
          | some (.arr xs) => some xs
          | _ => findWrapper kvs rest) = none
    cases hk : jGet kvs k with
    | none => exact ih (fun k2 hk2 xs => h k2 (by simp [hk2]) xs)
    | some v =>
      cases v with
      | arr xs => exact absurd hk (h k (by simp) xs)
      | null => exact ih (fun k2 hk2 xs => h k2 (by simp [hk2]) xs)
      | bool bb => exact ih (fun k2 hk2 xs => h k2 (by simp [hk2]) xs)
      | num nn => exact ih (fun k2 hk2 xs => h k2 (by simp [hk2]) xs)
      | str s => exact ih (fun k2 hk2 xs => h k2 (by simp [hk2]) xs)
      | obj kvs2 => exact ih (fun k2 hk2 xs => h k2 (by simp [hk2]) xs)

theorem findFallback_none :
    ∀ kvs : List (String × JVal),
      (∀ kv ∈ kvs, ∀ xs, kv.2 = .arr xs → xs.isEmpty = true ∨ xs.all jIsObj = false) →
      findFallback kvs = none := by
  intro kvs
  induction kvs with
  | nil => intro _; rfl
  | cons p rest ih =>
    intro h
    obtain ⟨k0, v0⟩ := p
    have hrest : findFallback rest = none :=
      ih (fun kv hkv xs hxs => h kv (by simp [hkv]) xs hxs)
    cases v0 with
    | arr xs =>
      have hcond : xs.isEmpty = true ∨ xs.all jIsObj = false :=
        h (k0, .arr xs) (by simp) xs rfl
      show (if !xs.isEmpty && xs.all jIsObj then some xs else findFallback rest) = none
      rcases hcond with hc | hc
      · simp [hc, hrest]
      · simp [hc, hrest]
    | null => exact hrest
    | bool bb => exact hrest
    | num nn => exact hrest
    | str s => exact hrest
    | obj kvs2 => exact hrest

theorem filter_not_contains_nil (l : List String) :
    l.filter (fun k => !([] : List String).contains k) = l := by
  induction l with
  | nil => rfl
  | cons x xs ih => simp [List.filter_cons, ih]

theorem filter_contains_nil (l : List String) :
    l.filter (fun k => ([] : List String).contains k) = [] := by
  induction l with
  | nil => rfl
  | cons x xs ih => simp [List.filter_cons, ih]

/-- Claim C7: a document that is not a sequence, not a mapping with a
conventional wrapper key holding a sequence, and not a mapping containing a
non-empty all-mapping sequence makes the locator yield `none` and the index
builder return the empty Index, with no error; in the assembled report the
other source's identifiers then all sit in its only-X list, the unsupported
side's only-X list is empty, and there are no changed-common entries. -/
theorem unsupported_shape_recoverable (d e : JVal) (h : unsupportedShape d) :
    guess_items d = none ∧ flatten_items d = [] ∧
    (reconcile e d).only_w3c = [] ∧ (reconcile e d).changes = [] ∧
    (∀ k, k ∈ (reconcile e d).only_tenon ↔ k ∈ (flatten_items e).map Prod.fst) ∧
    (reconcile d e).only_tenon = [] ∧ (reconcile d e).changes = [] ∧
    (∀ k, k ∈ (reconcile d e).only_w3c ↔ k ∈ (flatten_items e).map Prod.fst) := by
  have hg : guess_items d = none := by
    cases d with
    | arr xs => exact absurd rfl (h.1 xs)
    | obj kvs =>
      obtain ⟨hwrap, hfall⟩ := h.2 kvs rfl
      show (match findWrapper kvs wrapperKeys with
            | some xs => some xs
            | none => findFallback kvs) = none
      rw [findWrapper_none kvs wrapperKeys hwrap]
      exact findFallback_none kvs hfall
    | null => rfl
    | bool b => rfl
    | num n => rfl
    | str s => rfl
  have hfd : flatten_items d = [] := by simp [flatten_items, hg]
  have hmap : (flatten_items d).map Prod.fst = [] := by rw [hfd]; rfl
  refine ⟨hg, hfd, ?_, ?_, ?_, ?_, ?_, ?_⟩
  · rw [reconcile_only_w3c, hmap]
    rfl
  · rw [reconcile_changes]
    have hcommon : commonIds e d = [] := by
      unfold commonIds
      rw [hmap, filter_contains_nil]
      rfl
    rw [hcommon]
    rfl
  · intro k
    rw [reconcile_only_tenon, hmap, filter_not_contains_nil, mem_sortStrings]
  · rw [reconcile_only_tenon, hmap]
    rfl
  · rw [reconcile_changes]
    have hcommon : commonIds d e = [] := by
      unfold commonIds
      rw [hmap]
      rfl
    rw [hcommon]
    rfl
  · intro k
    rw [reconcile_only_w3c, hmap, filter_not_contains_nil, mem_sortStrings]

/-- Claim C7, witness: a bare number is an unsupported document shape; paired
against the one-record source of the concrete scenario, its side of the
report is empty and the other side's identifier is in only-A. -/
theorem unsupported_shape_recoverable_witness :
    guess_items (.num 3) = none ∧ (reconcile srcA (.num 3)).only_w3c = [] ∧
    (reconcile srcA (.num 3)).changes = [] := by
  have h : unsupportedShape (.num 3) := by
    constructor
    · intro xs hx
      cases hx
    · intro kvs hk
      cases hk
  exact ⟨(unsupported_shape_recoverable (.num 3) srcA h).1,
    (unsupported_shape_recoverable (.num 3) srcA h).2.2.1,
    (unsupported_shape_recoverable (.num 3) srcA h).2.2.2.1⟩

theorem contains_eq_of_perm {l1 l2 : List String} (h : List.Perm l1 l2) (k : String) :
    l1.contains k = l2.contains k := by
  rw [contains_eq_decide_mem, contains_eq_decide_mem]
  exact decide_eq_decide.mpr h.mem_iff

theorem sorted_filter_eq {tids T : List String} (p q : String → Bool)
    (ht : List.Perm tids T) (hpq : ∀ k, p k = q k) :
    sortStrings (tids.filter p) = sortStrings (T.filter q) := by
  have h1 : tids.filter p = tids.filter q := List.filter_congr (fun k _ => hpq k)
  rw [h1]
  exact sortStrings_eq_of_perm (ht.filter q)

/-- Claim C8: reconciliation is deterministic — the assembled `only_a`,
`only_b` and `changes` (and counts) depend only on the two index key sets,
not on the unspecified iteration order of Python's `set` objects: assembling
the report from any permutation of the two key lists yields exactly the
canonical report (timestamp excluded, as it is not part of the modelled
report). -/
theorem reconcile_deterministic (a b : JVal) (tids wids : List String)
    (ht : List.Perm tids ((flatten_items a).map Prod.fst))
    (hw : List.Perm wids ((flatten_items b).map Prod.fst)) :
    buildReport (flatten_items a) (flatten_items b) tids wids = reconcile a b := by
  have h1 : sortStrings (tids.filter (fun k => !wids.contains k)) =
      sortStrings (((flatten_items a).map Prod.fst).filter
        (fun k => !((flatten_items b).map Prod.fst).contains k)) :=
    sorted_filter_eq _ _ ht (fun k => by rw [contains_eq_of_perm hw k])
  have h2 : sortStrings (wids.filter (fun k => !tids.contains k)) =
      sortStrings (((flatten_items b).map Prod.fst).filter
        (fun k => !((flatten_items a).map Prod.fst).contains k)) :=
    sorted_filter_eq _ _ hw (fun k => by rw [contains_eq_of_perm ht k])
  have h3 : sortStrings (tids.filter (fun k => wids.contains k)) =
      sortStrings (((flatten_items a).map Prod.fst).filter
        (fun k => ((flatten_items b).map Prod.fst).contains k)) :=
    sorted_filter_eq _ _ ht (fun k => by rw [contains_eq_of_perm hw k])
  show Report.mk _ _ _ _ = Report.mk _ _ _ _
  simp only [buildReport, reconcile]
  rw [h1, h2, h3]

/-- Claim C8, witness: assembling from reversed key enumerations of a
two-record source reproduces the canonical report. -/
theorem reconcile_deterministic_witness :
    List.Perm ["1.2.1", "1.1.1"]
      ((flatten_items (.arr [.obj [("id", .str "1.1.1")], .obj [("id", .str "1.2.1")]])).map
        Prod.fst) ∧
    buildReport
      (flatten_items (.arr [.obj [("id", .str "1.1.1")], .obj [("id", .str "1.2.1")]]))
      (flatten_items (.arr ([] : List JVal))) ["1.2.1", "1.1.1"] [] =
    reconcile (.arr [.obj [("id", .str "1.1.1")], .obj [("id", .str "1.2.1")]])
      (.arr ([] : List JVal)) := by
  constructor
  · decide
  · exact reconcile_deterministic _ _ ["1.2.1", "1.1.1"] [] (by decide) (by decide)
